import Mathlib

/-!
Verification development for the makePot extraction core.

The source is TypeScript; strings are modelled as `List Char`, JavaScript
objects with string keys as insertion-ordered association lists, and the
ambient warning output as a collected list of diagnostics.  Every definition
is translated from the repository sources; the few parts of the repository
that are not included in the sources (the compiled extraction regex, the
field-name→label table `getJsonComment`, and the record types module) are
modelled from the specification and marked as such in their doc comments.
-/

namespace MakePot

/-! ## String primitives (JavaScript semantics over character lists) -/

/-- Whitespace predicate used by `trimChars` (models JS `String.trim`). -/
def isWsChar (c : Char) : Bool :=
  c = ' ' || c = '\t' || c = '\n' || c = '\r'

/-- Models JS `String.prototype.trim`: strip whitespace from both ends. -/
def trimChars (l : List Char) : List Char :=
  ((l.dropWhile isWsChar).reverse.dropWhile isWsChar).reverse

/-- Models JS `content.split('\n')`: split a text into its lines. -/
def splitNl : List Char → List (List Char)
  | [] => [[]]
  | c :: rest =>
    if c = '\n' then [] :: splitNl rest
    else
      match splitNl rest with
      | [] => [[c]]
      | l :: ls => (c :: l) :: ls

/-- Models JS `content.split('\n\n')`: split a text into blank-line-separated
blocks (leftmost, non-overlapping occurrences of the two-character separator). -/
def splitBlocks : List Char → List (List Char)
  | [] => [[]]
  | '\n' :: '\n' :: rest => [] :: splitBlocks rest
  | c :: rest =>
    match splitBlocks rest with
    | [] => [[c]]
    | l :: ls => (c :: l) :: ls

/-- Models the JS object assignment `obj[k] = v` on an insertion-ordered
string-keyed object: update in place if the key exists, else append. -/
def objInsert {β : Type} (k : String) (v : β) : List (String × β) → List (String × β)
  | [] => [(k, v)]
  | (a, b) :: rest => if a = k then (a, v) :: rest else (a, b) :: objInsert k v rest

/-- Models the JS object read `obj[k]` (`undefined` becomes `none`). -/
def lookupObj {β : Type} (k : String) : List (String × β) → Option β
  | [] => none
  | (a, b) :: rest => if a = k then some b else lookupObj k rest

/-! ## Position Indexer (part_000, `findLineNumber` and the index built in
`extractTranslationsFromCode`) -/

/-- The loop body of `findLineNumber`: iterate the index keys in ascending
order (JS `for..in` over integer-like keys), remembering the last key that is
`≤ charIndex`, and stopping at the first key that exceeds it. -/
def findPrev (charIndex : Nat) (prev : Nat) : List Nat → Nat
  | [] => prev
  | cur :: rest => if charIndex < cur then prev else findPrev charIndex cur rest

/-- The final read `indexMap[previousIndex]` of `findLineNumber`. -/
def lookupLine (indexMap : List (Nat × Nat)) (k : Nat) : Nat :=
  match indexMap with
  | [] => 0
  | (a, b) :: rest => if a = k then b else lookupLine rest k

/-- `findLineNumber` from part_000: find the line number of the line whose
start offset is the greatest one not exceeding `charIndex`. -/
def findLineNumber (charIndex : Nat) (indexMap : List (Nat × Nat)) : Nat :=
  lookupLine indexMap (findPrev charIndex 0 (indexMap.map Prod.fst))

/-- The `lines.forEach` loop of `extractTranslationsFromCode` that records,
for each line, its starting cumulative character offset against its 1-based
number (`idx` is the 0-based line counter, `cum` the running offset). -/
def lineIndexGo : List (List Char) → Nat → Nat → List (Nat × Nat)
  | [], _, _ => []
  | l :: ls, cum, idx => (cum, idx + 1) :: lineIndexGo ls (cum + l.length + 1) (idx + 1)

/-- The position index built once per file in `extractTranslationsFromCode`. -/
def buildLineIndex (content : List Char) : List (Nat × Nat) :=
  lineIndexGo (splitNl content) 0 0

/-! ## `detectPatternType`: the two implementations (src/utils.ts and
src/utils/index.ts).  `path.sep` is a single character, passed as `sep`. -/

inductive PatternKind : Type
  | file
  | directory
  | glob
deriving DecidableEq, Repr

/-- `detectPatternType` from src/utils.ts: the directory-separator test is
`pattern.includes(path.sep) || pattern.endsWith(path.sep)`. -/
def detectPatternType (sep : Char) (pattern : List Char) : PatternKind :=
  let containsFileExtension := pattern.contains '.'
  let containsDirectorySeparator :=
    pattern.contains sep || (match pattern.getLast? with
      | some c => c = sep
      | none => false)
  if pattern.contains '*' then .glob
  else if !containsFileExtension && !containsDirectorySeparator then .directory
  else if containsFileExtension && !containsDirectorySeparator then .file
  else .glob

/-- `detectPatternType` from src/utils/index.ts: the directory-separator test
is `pattern.includes(path.sep)` alone. -/
def detectPatternTypeIndex (sep : Char) (pattern : List Char) : PatternKind :=
  let containsFileExtension := pattern.contains '.'
  let containsDirectorySeparator := pattern.contains sep
  if pattern.contains '*' then .glob
  else if !containsFileExtension && !containsDirectorySeparator then .directory
  else if containsFileExtension && !containsDirectorySeparator then .file
  else .glob

/-! ## C5: correctness of the position indexer -/

/-- Helper for the C5 proof: decompose a text at its first newline, if any. -/
def breakAtNl : List Char → List Char × Option (List Char)
  | [] => ([], none)
  | c :: rest =>
    if c = '\n' then ([], some rest)
    else
      let q := breakAtNl rest
      (c :: q.1, q.2)

theorem breakAtNl_none : ∀ (l p : List Char), breakAtNl l = (p, none) → p = l ∧ '\n' ∉ l
  | [], p, h => by
    simp [breakAtNl] at h
    simp [h]
  | c :: rest, p, h => by
    by_cases hc : c = '\n'
    · simp [breakAtNl, hc] at h
    · simp only [breakAtNl, hc, if_false] at h
      obtain ⟨h1, h2⟩ := Prod.mk.injEq .. ▸ h
      obtain ⟨hp, hm⟩ := breakAtNl_none rest (breakAtNl rest).1 (by
        cases hq : breakAtNl rest
        · simp [hq] at h2 ⊢
          exact h2.symm ▸ rfl)
      subst h1
      refine ⟨by rw [hp], ?_⟩
      intro hmem
      rcases List.mem_cons.mp hmem with h | h
      · exact hc h.symm
      · exact hm h

theorem breakAtNl_some : ∀ (l p r : List Char), breakAtNl l = (p, some r) →
    l = p ++ '\n' :: r ∧ '\n' ∉ p
  | [], p, r, h => by simp [breakAtNl] at h
  | c :: rest, p, r, h => by
    by_cases hc : c = '\n'
    · subst hc
      simp [breakAtNl] at h
      obtain ⟨h1, h2⟩ := h
      subst h1; subst h2
      simp
    · simp only [breakAtNl, hc, if_false] at h
      obtain ⟨h1, h2⟩ := Prod.mk.injEq .. ▸ h
      obtain ⟨hl, hm⟩ := breakAtNl_some rest (breakAtNl rest).1 r (by
        cases hq : breakAtNl rest
        simp [hq] at h2 ⊢
        exact h2)
      subst h1
      constructor
      · simpa using congrArg (c :: ·) hl
      · intro hmem
        rcases List.mem_cons.mp hmem with h | h
        · exact hc h.symm
        · exact hm h
theorem splitNl_ne_nil : ∀ l : List Char, splitNl l ≠ []
  | [] => by simp [splitNl]
  | c :: rest => by
    by_cases hc : c = '\n'
    · simp [splitNl, hc]
    · simp only [splitNl, hc, if_false]
      cases hq : splitNl rest <;> simp

theorem splitNl_no_nl : ∀ l : List Char, '\n' ∉ l → splitNl l = [l]
  | [], _ => rfl
  | c :: rest, h => by
    have hc : ¬ c = '\n' := fun hh => h (hh ▸ List.mem_cons_self c rest)
    have hr : splitNl rest = [rest] := splitNl_no_nl rest (fun hh => h (List.mem_cons_of_mem c hh))
    simp [splitNl, hc, hr]

theorem splitNl_append : ∀ (p r : List Char), '\n' ∉ p →
    splitNl (p ++ '\n' :: r) = p :: splitNl r
  | [], r, _ => by simp [splitNl]
  | c :: p', r, h => by
    have hc : ¬ c = '\n' := fun hh => h (hh ▸ List.mem_cons_self c p')
    have hr := splitNl_append p' r (fun hh => h (List.mem_cons_of_mem c hh))
    simp only [List.cons_append, splitNl, hc, if_false, List.append_eq, hr]

theorem lineIndexGo_shift : ∀ (ls : List (List Char)) (cum idx : Nat),
    lineIndexGo ls cum idx = (lineIndexGo ls 0 0).map (fun q => (q.1 + cum, q.2 + idx))
  | [], _, _ => rfl
  | l :: ls, cum, idx => by
    simp only [lineIndexGo, List.map_cons]
    congr 1
    · simp
      omega
    · rw [lineIndexGo_shift ls (cum + l.length + 1) (idx + 1),
        lineIndexGo_shift ls (0 + l.length + 1) (0 + 1), List.map_map]
      apply List.map_congr_left
      intro q _
      simp
      omega

theorem findPrev_all_gt : ∀ (ks : List Nat) (O p : Nat), (∀ k ∈ ks, O < k) →
    findPrev O p ks = p
  | [], _, _, _ => rfl
  | k :: ks, O, p, h => by
    have hk : O < k := h k (List.mem_cons_self k ks)
    simp [findPrev, hk]

theorem findPrev_shift : ∀ (ks : List Nat) (O p d : Nat), d ≤ O →
    findPrev O (p + d) (ks.map (· + d)) = findPrev (O - d) p ks + d
  | [], _, _, _, _ => rfl
  | k :: ks, O, p, d, hd => by
    simp only [List.map_cons, findPrev]
    by_cases h : O - d < k
    · have h' : O < k + d := by omega
      simp [h, h']
    · have h' : ¬ O < k + d := by omega
      simp only [h, h', if_false]
      exact findPrev_shift ks O k d hd

theorem findPrev_mem : ∀ (ks : List Nat) (O p : Nat),
    findPrev O p ks = p ∨ findPrev O p ks ∈ ks
  | [], _, _ => Or.inl rfl
  | k :: ks, O, p => by
    simp only [findPrev]
    by_cases h : O < k
    · simp [h]
    · simp only [h, if_false]
      rcases findPrev_mem ks O k with h' | h'
      · rw [h']
        exact Or.inr (List.mem_cons_self k ks)
      · exact Or.inr (List.mem_cons_of_mem k h')

theorem lookupLine_shift : ∀ (l : List (Nat × Nat)) (k d e : Nat),
    k ∈ l.map Prod.fst →
    lookupLine (l.map (fun q => (q.1 + d, q.2 + e))) (k + d) = lookupLine l k + e
  | [], k, d, e, h => by simp at h
  | (a, b) :: rest, k, d, e, h => by
    simp only [List.map_cons, lookupLine]
    by_cases hk : a = k
    · simp [hk]
    · have hk' : ¬ a + d = k + d := by omega
      simp only [hk, hk', if_false]
      apply lookupLine_shift
      simp only [List.map_cons, List.mem_cons] at h
      rcases h with h | h
      · exact absurd h.symm hk
      · exact h

/-- C5 auxiliary, by strong induction through a fuel bound on the text length:
querying the index built by `extractTranslationsFromCode` through
`findLineNumber` returns 1 plus the number of newline characters strictly
before the queried offset. -/
theorem findLine_correct_fuel : ∀ (n : Nat) (T : List Char), T.length ≤ n → ∀ O : Nat,
    findLineNumber O (buildLineIndex T) = 1 + ((T.take O).count '\n') := by
  intro n
  induction n with
  | zero =>
    intro T hT O
    have : T = [] := List.eq_nil_of_length_eq_zero (Nat.le_zero.mp hT)
    subst this
    simp [findLineNumber, buildLineIndex, splitNl, lineIndexGo, findPrev, lookupLine]
  | succ n ih =>
    intro T hT O
    cases hb : breakAtNl T with
    | mk p ropt =>
      cases ropt with
      | none =>
        obtain ⟨hp, hnl⟩ := breakAtNl_none T p hb
        have hsplit : splitNl T = [T] := splitNl_no_nl T hnl
        have hcount : ((T.take O).count '\n') = 0 :=
          List.count_eq_zero.mpr (fun hmem => hnl (List.take_subset O T hmem))
        simp [findLineNumber, buildLineIndex, hsplit, lineIndexGo, findPrev, lookupLine, hcount]
      | some r =>
        obtain ⟨hT', hnl⟩ := breakAtNl_some T p r hb
        subst hT'
        have hrlen : r.length ≤ n := by
          have h2 := hT
          rw [List.length_append, List.length_cons] at h2
          omega
        -- decompose the index of `p ++ '\n' :: r`
        obtain ⟨l₀, ls, hsr⟩ := List.exists_cons_of_ne_nil (splitNl_ne_nil r)
        have hsplit : splitNl (p ++ '\n' :: r) = p :: splitNl r := splitNl_append p r hnl
        have hidx : buildLineIndex (p ++ '\n' :: r) =
            (0, 1) :: (buildLineIndex r).map (fun q => (q.1 + (p.length + 1), q.2 + 1)) := by
          rw [buildLineIndex, hsplit, hsr, lineIndexGo]
          rw [buildLineIndex, hsr]
          rw [lineIndexGo_shift (l₀ :: ls) (0 + p.length + 1) (0 + 1)]
          simp only [Nat.zero_add]
        set d := p.length + 1 with hd
        by_cases hO : O < d
        · -- the offset lies inside the first line
          have hkeys : ∀ k ∈ ((buildLineIndex r).map
              (fun q => (q.1 + d, q.2 + 1))).map Prod.fst, O < k := by
            intro k hk
            simp only [List.map_map, List.mem_map] at hk
            obtain ⟨q, _, hq⟩ := hk
            simp only [Function.comp] at hq
            omega
          have htake : (p ++ '\n' :: r).take O = p.take O := by
            rw [List.take_append_eq_append_take]
            have : O - p.length = 0 := by omega
            simp [this]
          have hcount : (((p ++ '\n' :: r).take O).count '\n') = 0 := by
            rw [htake]
            exact List.count_eq_zero.mpr (fun hmem => hnl (List.take_subset O p hmem))
          rw [hidx, findLineNumber, hcount]
          simp only [List.map_cons, findPrev, Nat.not_lt_zero, if_false]
          rw [findPrev_all_gt _ O 0 hkeys]
          simp [lookupLine]
        · -- the offset lies at or beyond the first newline
          have hO' : d ≤ O := Nat.le_of_not_lt hO
          have hidx0 : buildLineIndex r = (0, 1) :: lineIndexGo ls (0 + l₀.length + 1) (0 + 1) := by
            rw [buildLineIndex, hsr, lineIndexGo]
          have hkeys0 : (buildLineIndex r).map Prod.fst =
              0 :: (lineIndexGo ls (0 + l₀.length + 1) (0 + 1)).map Prod.fst := by
            rw [hidx0]; rfl
          set tk := (lineIndexGo ls (0 + l₀.length + 1) (0 + 1)).map Prod.fst with htk
          set k₀ := findPrev (O - d) 0 tk with hk₀
          have hmem0 : k₀ ∈ (buildLineIndex r).map Prod.fst := by
            rw [hkeys0]
            rcases findPrev_mem tk (O - d) 0 with h | h
            · rw [hk₀, h]; exact List.mem_cons_self 0 _
            · exact List.mem_cons_of_mem 0 (hk₀ ▸ h)
          -- left-hand side: reduce to the query on the index of `r`
          have hfp : findPrev O 0 (((buildLineIndex r).map
              (fun q => (q.1 + d, q.2 + 1))).map Prod.fst) = k₀ + d := by
            have hmapkeys : ((buildLineIndex r).map
                (fun q => (q.1 + d, q.2 + 1))).map Prod.fst =
                ((buildLineIndex r).map Prod.fst).map (· + d) := by
              simp [List.map_map, Function.comp]
            rw [hmapkeys, hkeys0]
            simp only [List.map_cons, Nat.zero_add]
            rw [findPrev]
            have : ¬ O < d := hO
            simp only [this, if_false]
            have := findPrev_shift tk O 0 d hO'
            simpa using this
          have hlk : lookupLine ((0, 1) :: (buildLineIndex r).map
              (fun q => (q.1 + d, q.2 + 1))) (k₀ + d) = lookupLine (buildLineIndex r) k₀ + 1 := by
            rw [lookupLine]
            have : ¬ (0 = k₀ + d) := by omega
            simp only [this, if_false]
            exact lookupLine_shift (buildLineIndex r) k₀ d 1 hmem0
          have hfind0 : findLineNumber (O - d) (buildLineIndex r) =
              lookupLine (buildLineIndex r) k₀ := by
            rw [findLineNumber, hkeys0]
            rw [findPrev]
            simp
          have hcount : (((p ++ '\n' :: r).take O).count '\n') =
              1 + ((r.take (O - d)).count '\n') := by
            have hcp : p.count '\n' = 0 := List.count_eq_zero.mpr hnl
            rw [List.take_append_eq_append_take, List.take_of_length_le (by omega)]
            have h1 : O - p.length = (O - d) + 1 := by omega
            rw [h1]
            simp [List.count_append, List.count_cons, List.take_succ_cons, hcp]
            omega
          rw [hidx, findLineNumber]
          simp only [List.map_cons, findPrev, Nat.not_lt_zero, if_false]
          have hhd : ¬ O < 0 := by omega
          rw [hfp, hlk, hcount]
          have := ih r hrlen (O - d)
          rw [hfind0] at this
          omega

/-- C5: for every source text `T` and every character offset `O`, the position
indexer (the line-start index built in `extractTranslationsFromCode`, queried
via `findLineNumber`) returns `1 +` the number of newline characters in
`T[0:O]`; in particular an offset on a line boundary resolves to the line
beginning there, including the final line and empty lines. -/
theorem findLineNumber_counts_newlines (T : List Char) (O : Nat) :
    findLineNumber O (buildLineIndex T) = 1 + ((T.take O).count '\n') :=
  findLine_correct_fuel T.length T le_rfl O

/-- Helper: the last element of a list is a member of it. -/
theorem getLast?_mem {α : Type} : ∀ (l : List α) (a : α), l.getLast? = some a → a ∈ l
  | [], _, h => by simp at h
  | [b], a, h => by
    simp [List.getLast?] at h
    simp [h]
  | b :: c :: l, a, h => by
    rw [List.getLast?_cons_cons] at h
    exact List.mem_cons_of_mem _ (getLast?_mem (c :: l) a h)

/-- C10: the two implementations of `detectPatternType` (src/utils.ts and
src/utils/index.ts) compute the same classification for every pattern: the
extra `endsWith(path.sep)` disjunct is subsumed by `includes(path.sep)`. -/
theorem detectPatternType_equiv (sep : Char) (pattern : List Char) :
    detectPatternType sep pattern = detectPatternTypeIndex sep pattern := by
  have h : (pattern.contains sep
      || (match pattern.getLast? with
          | some c => decide (c = sep)
          | none => false)) = pattern.contains sep := by
    cases hl : pattern.getLast? with
    | none => simp
    | some c =>
      by_cases hc : c = sep
      · subst hc
        have hm : c ∈ pattern := getLast?_mem pattern c hl
        have hcon : pattern.contains c = true := by
          simpa [List.contains] using List.elem_iff.mpr hm
        simp [hcon, hm]
      · simp [hc]
  simp only [detectPatternType, detectPatternTypeIndex]
  rw [h]

/-! ## `removeCommentMarkup` (src/utils.ts): global replacement of
`/*...*/` (non-greedy) and `//...` (to end of line) with the empty string -/

/-- Scan for the first occurrence of the two-character closer of a block
comment; return the suffix after it (the non-greedy `[\s\S]*?` semantics). -/
def findBlockEnd : List Char → Option (List Char)
  | [] => none
  | [_] => none
  | a :: b :: rest =>
    if a = '*' ∧ b = '/' then some rest
    else findBlockEnd (b :: rest)

theorem findBlockEnd_length : ∀ (l r : List Char), findBlockEnd l = some r →
    r.length + 2 ≤ l.length
  | [], r, h => by simp [findBlockEnd] at h
  | [a], r, h => by simp [findBlockEnd] at h
  | a :: b :: rest, r, h => by
    by_cases hab : a = '*' ∧ b = '/'
    · simp [findBlockEnd, hab] at h
      rw [← h]
      simp
    · simp only [findBlockEnd, hab, if_false] at h
      have := findBlockEnd_length (b :: rest) r h
      simp at this ⊢
      omega

/-- Skip the body of a `//` line comment: JS `.` does not match the line
terminator, so scanning resumes at the newline itself (or at end of input). -/
def dropLineComment : List Char → List Char
  | [] => []
  | c :: rest => if c = '\n' then c :: rest else dropLineComment rest

theorem dropLineComment_length : ∀ l : List Char, (dropLineComment l).length ≤ l.length
  | [] => le_rfl
  | c :: rest => by
    by_cases hc : c = '\n'
    · simp [dropLineComment, hc]
    · simp only [dropLineComment, hc, if_false]
      have := dropLineComment_length rest
      simp
      omega

/-- `removeCommentMarkup` from src/utils.ts:
`input.replace(/\x2f\*[\s\S]*?\*\x2f|\x2f\x2f.*​/gm, '')` — delete every
block comment (up to the nearest closer) and every line comment, scanning
left to right and keeping unmatched characters. -/
def removeCommentMarkup : List Char → List Char
  | [] => []
  | [c] => [c]
  | a :: b :: rest =>
    if a = '/' ∧ b = '*' then
      match hfb : findBlockEnd rest with
      | some rest' => removeCommentMarkup rest'
      | none => a :: removeCommentMarkup (b :: rest)
    else if a = '/' ∧ b = '/' then removeCommentMarkup (dropLineComment rest)
    else a :: removeCommentMarkup (b :: rest)
termination_by l => l.length
decreasing_by
  · simp
    have := findBlockEnd_length rest rest' hfb
    omega
  · simp
  · simp
    have := dropLineComment_length rest
    omega
  · simp

/-! ## Code Extractor (part_000, `extractTranslationsFromCode`) -/

/-- One match of the extraction pattern.  Modelled from the spec (§4.1): the
compiled pattern `TRANSLATIONS_REGEX` lives in the `const` module, which is
not among the sources; a match exposes its start index, an optional preceding
translator-annotation capture, the invoked function name, the message-id
capture, an optional plural capture, and an optional context capture, the
latter a two-element capture whose second element is the literal context
string. -/
structure MatchData where
  index : Nat
  translatorComment : Option (List Char)
  fnName : List Char
  msgid : List Char
  plural : Option (List Char)
  msgctxt : Option (List Char × List Char)
deriving DecidableEq, Repr

/-- The occurrence record pushed by `extractTranslationsFromCode` (the
`TranslationString` shape of the missing types module, fields as used). -/
structure TranslationString where
  msgid : List Char
  msgctxt : Option (List Char × List Char)
  comments : Option (List Char)
  reference : List Char
deriving DecidableEq, Repr

/-- The non-fatal slug-mismatch warning printed by the extractor, collected
as structured data (file, line, captured context literal, configured slug). -/
structure Diagnostic where
  filename : List Char
  line : Nat
  found : List Char
  slug : List Char
deriving DecidableEq, Repr

/-- The occurrence constructed for one match: comments are the captured
annotation with comment markup removed and the result trimmed; the reference
is the line `#: <filename>:<lineNumber>`. -/
def mkOccurrence (filename : List Char) (indexMap : List (Nat × Nat))
    (m : MatchData) : TranslationString :=
  { msgid := m.msgid
    msgctxt := m.msgctxt
    comments := m.translatorComment.map (fun c => trimChars (removeCommentMarkup c))
    reference := ('#' :: ':' :: ' ' :: filename) ++
      ':' :: Nat.toDigits 10 (findLineNumber m.index indexMap) }

/-- One iteration of the `while` loop of `extractTranslationsFromCode`:
if the match carries a context capture (always two elements under the §4.1
model, so the `length >= 2` guard holds) whose literal differs from the
configured slug, append a diagnostic; then push the occurrence. -/
def extractStep (slug filename : List Char) (indexMap : List (Nat × Nat))
    (acc : List TranslationString × List Diagnostic) (m : MatchData) :
    List TranslationString × List Diagnostic :=
  let lineNumber := findLineNumber m.index indexMap
  let warns :=
    match m.msgctxt with
    | some q => if q.2 ≠ slug then acc.2 ++ [⟨filename, lineNumber, q.2, slug⟩] else acc.2
    | none => acc.2
  (acc.1 ++ [mkOccurrence filename indexMap m], warns)

/-- The matching loop of `extractTranslationsFromCode`, over an already
obtained sequence of matches. -/
def extractLoop (slug filename : List Char) (indexMap : List (Nat × Nat))
    (ms : List MatchData) : List TranslationString × List Diagnostic :=
  ms.foldl (extractStep slug filename indexMap) ([], [])

/-- The diagnostic produced for a match, when any. -/
def warnOf (slug filename : List Char) (indexMap : List (Nat × Nat))
    (m : MatchData) : Option Diagnostic :=
  match m.msgctxt with
  | some q =>
    if q.2 ≠ slug then some ⟨filename, findLineNumber m.index indexMap, q.2, slug⟩ else none
  | none => none

theorem extractLoop_go (slug filename : List Char) (indexMap : List (Nat × Nat)) :
    ∀ (ms : List MatchData) (acc : List TranslationString × List Diagnostic),
    ms.foldl (extractStep slug filename indexMap) acc =
      (acc.1 ++ ms.map (mkOccurrence filename indexMap),
       acc.2 ++ ms.filterMap (warnOf slug filename indexMap))
  | [], acc => by simp
  | m :: ms, acc => by
    rw [List.foldl_cons, extractLoop_go slug filename indexMap ms]
    cases hc : m.msgctxt with
    | none =>
      simp [extractStep, warnOf, hc]
    | some q =>
      by_cases hq : q.2 = slug
      · simp [extractStep, warnOf, hc, hq]
      · simp [extractStep, warnOf, hc, hq]

theorem extractLoop_eq (slug filename : List Char) (indexMap : List (Nat × Nat))
    (ms : List MatchData) :
    extractLoop slug filename indexMap ms =
      (ms.map (mkOccurrence filename indexMap),
       ms.filterMap (warnOf slug filename indexMap)) := by
  rw [extractLoop, extractLoop_go]
  simp

/-- C3: for every match carrying a context capture, a diagnostic naming the
file, the line, and the two mismatched values is emitted when and only when
the captured context literal differs from the configured slug (the
`filterMap` equation); the occurrence list is unaffected by the slug either
way, and the produced occurrence's `msgctxt` is the captured context
verbatim, never corrected. -/
theorem context_mismatch_diagnostics (slug slug' filename : List Char)
    (indexMap : List (Nat × Nat)) (ms : List MatchData) :
    (extractLoop slug filename indexMap ms).2 =
      ms.filterMap (fun m =>
        match m.msgctxt with
        | some q =>
          if q.2 ≠ slug then
            some ⟨filename, findLineNumber m.index indexMap, q.2, slug⟩
          else none
        | none => none) ∧
    (extractLoop slug filename indexMap ms).1 =
      ms.map (mkOccurrence filename indexMap) ∧
    (∀ m : MatchData, (mkOccurrence filename indexMap m).msgctxt = m.msgctxt) ∧
    (extractLoop slug filename indexMap ms).1 =
      (extractLoop slug' filename indexMap ms).1 := by
  refine ⟨?_, ?_, ?_, ?_⟩
  · rw [extractLoop_eq]
    rfl
  · rw [extractLoop_eq]
  · intro m
    rfl
  · rw [extractLoop_eq, extractLoop_eq]

/-- C4 (amended): every occurrence produced by the extractor loop carries as
comments the captured annotation with comment markup removed and the result
trimmed (`none` when no annotation was captured), and as reference the string
`#: <filename>:<lineNumber>` with the line number resolved by the position
indexer — the source prepends the PO-reference marker `#: `, which the
original claim omitted. -/
theorem occurrence_comment_and_reference (slug filename : List Char)
    (indexMap : List (Nat × Nat)) (ms : List MatchData) :
    (extractLoop slug filename indexMap ms).1 =
      ms.map (fun m =>
        { msgid := m.msgid
          msgctxt := m.msgctxt
          comments := m.translatorComment.map (fun c => trimChars (removeCommentMarkup c))
          reference := ('#' :: ':' :: ' ' :: filename) ++
            ':' :: Nat.toDigits 10 (findLineNumber m.index indexMap) : TranslationString }) := by
  rw [extractLoop_eq]
  rfl

/-- C4 counterexample: at a concrete match the produced reference is
`#: a.js:1`, not the bare `a.js:1` required by the claim as stated. -/
theorem reference_not_bare_filename_line :
    ((extractLoop [] ('a' :: '.' :: 'j' :: 's' :: []) (buildLineIndex ('c' :: []))
        [⟨0, none, ('f' :: []), ('x' :: []), none, none⟩]).1.map
      (fun o => o.reference)) =
      [('#' :: ':' :: ' ' :: 'a' :: '.' :: 'j' :: 's' :: ':' :: '1' :: [])] ∧
    ('#' :: ':' :: ' ' :: 'a' :: '.' :: 'j' :: 's' :: ':' :: '1' :: [] : List Char) ≠
      ('a' :: '.' :: 'j' :: 's' :: ':' :: '1' :: []) := by
  constructor
  · rfl
  · decide

/-! ## C7: the matching loop advances monotonically and terminates -/

/-- Modelled from the spec (§4.1): the compiled matcher driven via its "find
next match from current position" operation (`exec` with a `lastIndex`
cursor).  `exec pos` returns the next match together with the new cursor
position, or `none` when no further match exists. -/
structure Matcher where
  exec : Nat → Option (MatchData × Nat)

/-- The `while ((match = TRANSLATIONS_REGEX.exec(content)) !== null)` driver,
with explicit fuel; returns `none` only if the fuel runs out. -/
def runMatcher (M : Matcher) (fuel pos : Nat) : Option (List MatchData) :=
  match M.exec pos with
  | none => some []
  | some (m, pos') =>
    match fuel with
    | 0 => none
    | fuel' + 1 => (runMatcher M fuel' pos').map (fun ms => m :: ms)

/-- `extractTranslationsFromCode` from part_000: build the position index
once, drive the matcher over the whole content, and process every match. -/
def extractTranslationsFromCode (M : Matcher) (content : List Char)
    (filename slug : List Char) : Option (List TranslationString × List Diagnostic) :=
  (runMatcher M (content.length + 1) 0).map
    (extractLoop slug filename (buildLineIndex content))

theorem runMatcher_exec_none (M : Matcher) (fuel pos : Nat)
    (hex : M.exec pos = none) : runMatcher M fuel pos = some [] := by
  unfold runMatcher
  rw [hex]

theorem runMatcher_exec_some (M : Matcher) (fuel pos : Nat) (m : MatchData) (pos' : Nat)
    (hex : M.exec pos = some (m, pos')) :
    runMatcher M (fuel + 1) pos = (runMatcher M fuel pos').map (fun ms => m :: ms) := by
  conv_lhs => unfold runMatcher
  rw [hex]

theorem runMatcher_zero_some (M : Matcher) (pos : Nat) (m : MatchData) (pos' : Nat)
    (hex : M.exec pos = some (m, pos')) : runMatcher M 0 pos = none := by
  unfold runMatcher
  rw [hex]

theorem runMatcher_isSome (M : Matcher) (L : Nat)
    (hadv : ∀ pos m pos', M.exec pos = some (m, pos') → pos < pos')
    (hbound : ∀ pos, L < pos → M.exec pos = none) :
    ∀ (fuel pos : Nat), L + 1 ≤ fuel + pos → ∃ ms, runMatcher M fuel pos = some ms := by
  intro fuel
  induction fuel with
  | zero =>
    intro pos hp
    have : M.exec pos = none := hbound pos (by omega)
    exact ⟨[], runMatcher_exec_none M 0 pos this⟩
  | succ fuel ih =>
    intro pos hp
    cases hex : M.exec pos with
    | none => exact ⟨[], runMatcher_exec_none M (fuel + 1) pos hex⟩
    | some mp =>
      obtain ⟨m, pos'⟩ := mp
      have hlt : pos < pos' := hadv pos m pos' hex
      obtain ⟨ms, hms⟩ := ih pos' (by omega)
      exact ⟨m :: ms, by rw [runMatcher_exec_some M fuel pos m pos' hex, hms]; rfl⟩

theorem runMatcher_sorted (M : Matcher)
    (hidx : ∀ pos m pos', M.exec pos = some (m, pos') → pos ≤ m.index ∧ m.index < pos') :
    ∀ (fuel pos : Nat) (ms : List MatchData), runMatcher M fuel pos = some ms →
      (∀ x ∈ ms, pos ≤ x.index) ∧ (ms.map (fun x => x.index)).Pairwise (· < ·) := by
  intro fuel
  induction fuel with
  | zero =>
    intro pos ms h
    cases hex : M.exec pos with
    | none =>
      rw [runMatcher_exec_none M 0 pos hex] at h
      obtain rfl : ([] : List MatchData) = ms := Option.some.inj h
      simp
    | some mp =>
      obtain ⟨m, pos'⟩ := mp
      rw [runMatcher_zero_some M pos m pos' hex] at h
      simp at h
  | succ fuel ih =>
    intro pos ms h
    cases hex : M.exec pos with
    | none =>
      rw [runMatcher_exec_none M (fuel + 1) pos hex] at h
      obtain rfl : ([] : List MatchData) = ms := Option.some.inj h
      simp
    | some mp =>
      obtain ⟨m, pos'⟩ := mp
      rw [runMatcher_exec_some M fuel pos m pos' hex] at h
      cases hrun : runMatcher M fuel pos' with
      | none => rw [hrun] at h; simp at h
      | some ms' =>
        rw [hrun] at h
        simp at h
        obtain ⟨hm, hp⟩ := hidx pos m pos' hex
        obtain ⟨hall, hpw⟩ := ih pos' ms' hrun
        subst h
        constructor
        · intro x hx
          rcases List.mem_cons.mp hx with h | h
          · exact h ▸ hm
          · exact le_trans (le_of_lt (lt_of_le_of_lt hm hp)) (hall x h)
        · rw [List.map_cons]
          refine List.Pairwise.cons ?_ hpw
          intro b hb
          obtain ⟨x, hx, rfl⟩ := List.mem_map.mp hb
          exact lt_of_lt_of_le hp (hall x hx)

/-- C7: under the spec's matcher contract — each successful "find next match
from current position" yields a match starting at or after the cursor and
moves the cursor strictly past the match start, and no match is found beyond
the end of the content — the extractor's `while` loop terminates on every
input (fuel `content.length + 1` suffices), the match start positions are
strictly increasing (so no span is ever re-matched), and the occurrences are
produced in that order. -/
theorem extractTranslationsFromCode_terminates_sorted (M : Matcher)
    (content filename slug : List Char)
    (hidx : ∀ pos m pos', M.exec pos = some (m, pos') → pos ≤ m.index ∧ m.index < pos')
    (hbound : ∀ pos, content.length < pos → M.exec pos = none) :
    ∃ ms : List MatchData,
      runMatcher M (content.length + 1) 0 = some ms ∧
      (ms.map (fun x => x.index)).Pairwise (· < ·) ∧
      extractTranslationsFromCode M content filename slug =
        some (ms.map (mkOccurrence filename (buildLineIndex content)),
              ms.filterMap (warnOf slug filename (buildLineIndex content))) := by
  have hadv : ∀ pos m pos', M.exec pos = some (m, pos') → pos < pos' := by
    intro pos m pos' h
    have := hidx pos m pos' h
    omega
  obtain ⟨ms, hms⟩ :=
    runMatcher_isSome M content.length hadv hbound (content.length + 1) 0 (by omega)
  refine ⟨ms, hms, ?_, ?_⟩
  · exact (runMatcher_sorted M hidx (content.length + 1) 0 ms hms).2
  · rw [extractTranslationsFromCode, hms]
    simp [extractLoop_eq]

/-- A concrete single-match matcher used to witness the C7 theorem. -/
def witnessMatcher : Matcher :=
  ⟨fun pos =>
    if pos = 0 then some (⟨0, none, ('f' :: []), ('x' :: []), none, none⟩, 1) else none⟩

theorem extract_terminates_sorted_witness :
    ∃ ms : List MatchData,
      runMatcher witnessMatcher (('c' :: [] : List Char).length + 1) 0 = some ms ∧
      (ms.map (fun x => x.index)).Pairwise (· < ·) ∧
      extractTranslationsFromCode witnessMatcher ('c' :: []) ('f' :: []) ('s' :: []) =
        some (ms.map (mkOccurrence ('f' :: []) (buildLineIndex ('c' :: []))),
              ms.filterMap (warnOf ('s' :: []) ('f' :: []) (buildLineIndex ('c' :: [])))) := by
  refine extractTranslationsFromCode_terminates_sorted witnessMatcher
    ('c' :: []) ('f' :: []) ('s' :: []) ?_ ?_
  · intro pos m pos' h
    by_cases hp : pos = 0
    · subst hp
      simp [witnessMatcher] at h
      obtain ⟨h1, h2⟩ := h
      subst h1
      subst h2
      simp
    · simp [witnessMatcher, hp] at h
  · intro pos hlt
    have hp : ¬ pos = 0 := by omega
    simp [witnessMatcher, hp]

/-! ## Structured-Data Extractor (part_001, `yieldParsedData`) and the
catalog merge -/

/-- The `comments` sub-object of a gettext translation entry. -/
structure GtComments where
  extracted : String
  reference : Option String
deriving DecidableEq, Repr

/-- The `GetTextTranslation` record as produced by `gentranslation`. -/
structure GetTextTranslation where
  msgctxt : Option String
  msgid : String
  msgid_plural : String
  msgstr : List String
  comments : GtComments
deriving DecidableEq, Repr

/-- `gentranslation` from part_001: a context-less entry whose msgid is the
`string` argument, with the label as extracted comment and the file path as
reference. -/
def gentranslation (label string : String) (filePath : Option String) : GetTextTranslation :=
  { msgctxt := none
    msgid := string
    msgid_plural := ""
    msgstr := []
    comments := { extracted := label, reference := filePath } }

/-- The two-level catalog object `TranslationStrings`: context key to
(msgid key to entry), insertion-ordered. -/
abbrev TranslationStrings : Type := List (String × List (String × GetTextTranslation))

/-- Modelled from the spec: the field-name→semantic-label table consulted by
`yieldParsedData` (`getJsonComment` from the JSON utilities module, which is
not among the sources), instantiated for the block.json mapping stated in the
claim: title→"Block Title", tags→"Block Tag", nested→"Nested Label". -/
def getJsonComment (term : String) ( _filename : String) : String :=
  if term = "title" then "Block Title"
  else if term = "tags" then "Block Tag"
  else if term = "nested" then "Nested Label"
  else term

/-- A value of the parsed structured input: absent/null, a string, a sequence
of strings, or a nested mapping (whose values may or may not be strings). -/
inductive JInner : Type
  | istr (s : String)
  | iother
deriving DecidableEq, Repr

inductive JItem : Type
  | jnull
  | jstr (s : String)
  | jarr (l : List String)
  | jobj (l : List (String × JInner))
deriving DecidableEq, Repr

/-- The catalog-merge step of `storeTranslation` (part_001 lines 75–78):
`gettextTranslations[entry.msgctxt ?? ''] = { ...(existing || {}),
[entry.msgid]: entry }` — the bucket is keyed by the entry's context
(empty string when absent) and the entry is written at its msgid key,
overwriting whatever was there. -/
def storeEntry (cat : TranslationStrings) (entry : GetTextTranslation) : TranslationStrings :=
  objInsert (entry.msgctxt.getD "")
    (objInsert entry.msgid entry ((lookupObj (entry.msgctxt.getD "") cat).getD []))
    cat

/-- `storeTranslation` from part_001 (a closure over the current top-level
`term`): builds the entry and merges it.  The `value` parameter is documented
in the source as "The translation string to store" but is never used by the
body — the entry's msgid is `valueKey`, which defaults to the top-level key
`term`. -/
def storeTranslation (gjc : String → String → String) (filename filepath term : String)
    (cat : TranslationStrings) (value : String) (valueKey : Option String) :
    TranslationStrings :=
  storeEntry cat (gentranslation (gjc term filename) (valueKey.getD term) (some filepath))

/-- The body of the `Object.entries(parsed).forEach` loop of
`yieldParsedData`: falsy items (null, empty string) are skipped; a string
stores once, an array stores once per element, a nested object stores once
per string-valued inner entry with the inner key as `valueKey`. -/
def processEntry (gjc : String → String → String) (filename filepath : String)
    (cat : TranslationStrings) : String × JItem → TranslationStrings
  | (term, item) =>
    match item with
    | .jnull => cat
    | .jstr s =>
      if s = "" then cat else storeTranslation gjc filename filepath term cat s none
    | .jarr l =>
      l.foldl (fun c v => storeTranslation gjc filename filepath term c v none) cat
    | .jobj l =>
      l.foldl (fun c kv =>
        match kv.2 with
        | .istr s => storeTranslation gjc filename filepath term c s (some kv.1)
        | .iother => c) cat

/-- `yieldParsedData` from part_001, for non-falsy parsed input. -/
def yieldParsedData (gjc : String → String → String) (filename filepath : String)
    (parsed : List (String × JItem)) : TranslationStrings :=
  parsed.foldl (processEntry gjc filename filepath) []

/-- `yieldParsedData` including the leading `if (!parsed) return {}` guard. -/
def yieldParsedDataOpt (gjc : String → String → String) (filename filepath : String)
    (parsed : Option (List (String × JItem))) : TranslationStrings :=
  match parsed with
  | none => []
  | some p => yieldParsedData gjc filename filepath p

/-- C1 (code bug): at the claim's input the extractor keys entries by the
field keys, not by the string values — `storeTranslation` never uses its
`value` argument, so the produced msgids are "title", "tags" (only once: the
two array elements collapse into one entry) and the inner key "x"; three
entries instead of the four value-keyed occurrences the claim requires. -/
theorem yieldParsedData_stores_keys_not_values :
    (yieldParsedData getJsonComment "block.json" "block.json"
        [("title", .jstr "Hello"), ("tags", .jarr ["a", "b"]),
         ("nested", .jobj [("x", .istr "y")])]).map
      (fun p => (p.1, p.2.map (fun q => (q.2.comments.extracted, q.2.msgid)))) =
      [("", [("Block Title", "title"), ("Block Tag", "tags"), ("Nested Label", "x")])] := by
  rfl

/-! ## C2 and C9: merge behaviour and catalog identity invariant -/

theorem lookupObj_objInsert {β : Type} (k k' : String) (v : β) :
    ∀ l : List (String × β),
    lookupObj k (objInsert k' v l) = if k' = k then some v else lookupObj k l
  | [] => by
    by_cases h : k' = k <;> simp [objInsert, lookupObj, h]
  | (a, b) :: rest => by
    by_cases ha : a = k'
    · subst ha
      by_cases hk : a = k <;> simp [objInsert, lookupObj, hk]
    · by_cases hk : a = k
      · subst hk
        have : ¬ k' = a := fun hh => ha hh.symm
        simp [objInsert, lookupObj, ha, this]
      · simp [objInsert, lookupObj, ha, hk]
        exact lookupObj_objInsert k k' v rest

/-- The two-level catalog read `gettextTranslations[ctx]?.[msgid]`. -/
def lookup2 (cat : TranslationStrings) (ctx msgid : String) : Option GetTextTranslation :=
  match lookupObj ctx cat with
  | some inner => lookupObj msgid inner
  | none => none

/-- The merge step written pointwise: it assigns the new entry at its own
identity key and leaves every other key unchanged. -/
theorem lookup2_storeEntry (cat : TranslationStrings) (e : GetTextTranslation)
    (ctx id : String) :
    lookup2 (storeEntry cat e) ctx id =
      if e.msgctxt.getD "" = ctx ∧ e.msgid = id then some e else lookup2 cat ctx id := by
  rw [lookup2, storeEntry, lookupObj_objInsert]
  by_cases hctx : e.msgctxt.getD "" = ctx
  · simp only [hctx, if_true]
    rw [lookupObj_objInsert]
    by_cases hid : e.msgid = id
    · simp [hctx, hid]
    · simp only [hctx, hid, true_and, if_false]
      rw [lookup2]
      cases hb : lookupObj ctx cat with
      | some inner => rw [← hctx] at hb; simp [hb]
      | none => rw [← hctx] at hb; simp [hb, lookupObj]
  · simp only [hctx, if_false, false_and]
    rw [lookup2]

/-- Merging a list of entries, in order (the sequence of `storeTranslation`
merge steps performed by the extractor run). -/
def mergeEntries (cat : TranslationStrings) (es : List GetTextTranslation) :
    TranslationStrings :=
  es.foldl storeEntry cat

/-- The last entry of the sequence carrying a given identity key, if any. -/
def lastMatching (ctx id : String) : List GetTextTranslation → Option GetTextTranslation
  | [] => none
  | e :: rest =>
    match lastMatching ctx id rest with
    | some r => some r
    | none => if e.msgctxt.getD "" = ctx ∧ e.msgid = id then some e else none

theorem mergeEntries_lookup (ctx id : String) :
    ∀ (es : List GetTextTranslation) (cat : TranslationStrings),
    lookup2 (mergeEntries cat es) ctx id =
      match lastMatching ctx id es with
      | some e => some e
      | none => lookup2 cat ctx id
  | [], cat => by simp [mergeEntries, lastMatching]
  | e :: es, cat => by
    have hstep : mergeEntries cat (e :: es) = mergeEntries (storeEntry cat e) es := rfl
    rw [hstep, mergeEntries_lookup ctx id es (storeEntry cat e)]
    cases hlm : lastMatching ctx id es with
    | some r => simp [lastMatching, hlm]
    | none =>
      simp only [lastMatching, hlm]
      rw [lookup2_storeEntry]
      by_cases hc : e.msgctxt.getD "" = ctx ∧ e.msgid = id
      · simp [hc]
      · simp [hc]

theorem lastMatching_append (ctx id : String) :
    ∀ (A B : List GetTextTranslation),
    lastMatching ctx id (A ++ B) =
      match lastMatching ctx id B with
      | some r => some r
      | none => lastMatching ctx id A
  | [], B => by
    cases hB : lastMatching ctx id B <;> simp [lastMatching, hB]
  | e :: A, B => by
    simp only [List.cons_append, lastMatching, List.append_eq]
    rw [lastMatching_append ctx id A B]
    cases hB : lastMatching ctx id B with
    | some r => rfl
    | none => rfl

/-- C2 (amended): the merge overwrites — storing an occurrence whose identity
key `(msgctxt ?? "", msgid)` is already present replaces the stored entry
with the new one (last-seen wins, single reference retained) — and merging
the same occurrence sequence twice is idempotent: the resulting catalog has
the same (context, messageId) entry set and identical entries (references
unchanged, not doubled) as merging it once. -/
theorem merge_overwrites_and_idempotent :
    (∀ (cat : TranslationStrings) (e : GetTextTranslation),
      lookup2 (storeEntry cat e) (e.msgctxt.getD "") e.msgid = some e) ∧
    (∀ (cat : TranslationStrings) (es : List GetTextTranslation) (ctx id : String),
      lookup2 (mergeEntries cat (es ++ es)) ctx id = lookup2 (mergeEntries cat es) ctx id) := by
  constructor
  · intro cat e
    rw [lookup2_storeEntry]
    simp
  · intro cat es ctx id
    rw [mergeEntries_lookup, mergeEntries_lookup, lastMatching_append]
    cases lastMatching ctx id es <;> rfl

/-- A concrete entry (context-less, msgid "k", from "a.json"). -/
def entryA : GetTextTranslation := gentranslation "LabelA" "k" (some "a.json")

/-- A second concrete entry with the same identity key but other comments. -/
def entryB : GetTextTranslation := gentranslation "LabelB" "k" (some "b.json")

/-- C2 counterexample: merging two occurrences sharing the identity key
("", "k") leaves the second entry — the first-seen comment does not win and
the first reference is lost — and re-merging the same single-occurrence
sequence leaves the catalog identical, so the reference is not doubled. -/
theorem merge_not_appending :
    lookup2 (mergeEntries [] [entryA, entryB]) "" "k" = some entryB ∧
    entryB.comments ≠ entryA.comments ∧
    mergeEntries (mergeEntries [] [entryA]) [entryA] = mergeEntries [] [entryA] := by
  refine ⟨rfl, ?_, rfl⟩
  decide

theorem objInsert_keys {β : Type} (k : String) (v : β) :
    ∀ l : List (String × β),
    (objInsert k v l).map Prod.fst =
      if k ∈ l.map Prod.fst then l.map Prod.fst else l.map Prod.fst ++ [k]
  | [] => by simp [objInsert]
  | (a, b) :: rest => by
    by_cases ha : a = k
    · subst ha
      simp [objInsert]
    · have hak : ¬ k = a := fun hh => ha hh.symm
      simp only [objInsert, ha, if_false, List.map_cons, List.mem_cons, hak, false_or]
      rw [objInsert_keys k v rest]
      by_cases hk : k ∈ rest.map Prod.fst <;> simp [hk]

theorem objInsert_nodup {β : Type} (k : String) (v : β) (l : List (String × β))
    (h : (l.map Prod.fst).Nodup) : ((objInsert k v l).map Prod.fst).Nodup := by
  rw [objInsert_keys]
  by_cases hk : k ∈ l.map Prod.fst
  · simp [hk, h]
  · simp [hk, List.nodup_append, h]

theorem objInsert_mem {β : Type} (k : String) (v : β) :
    ∀ (l : List (String × β)) (p : String × β),
    p ∈ objInsert k v l → p = (k, v) ∨ p ∈ l
  | [], p, h => by
    simp [objInsert] at h
    exact Or.inl h
  | (a, b) :: rest, p, h => by
    by_cases ha : a = k
    · subst ha
      simp only [objInsert, if_true] at h
      rcases List.mem_cons.mp h with h | h
      · exact Or.inl h
      · exact Or.inr (List.mem_cons_of_mem _ h)
    · simp only [objInsert, ha, if_false] at h
      rcases List.mem_cons.mp h with h | h
      · exact Or.inr (h ▸ List.mem_cons_self _ _)
      · rcases objInsert_mem k v rest p h with h | h
        · exact Or.inl h
        · exact Or.inr (List.mem_cons_of_mem _ h)

theorem lookupObj_mem {β : Type} (k : String) :
    ∀ (l : List (String × β)) (v : β), lookupObj k l = some v → (k, v) ∈ l
  | [], v, h => by simp [lookupObj] at h
  | (a, b) :: rest, v, h => by
    by_cases ha : a = k
    · subst ha
      simp [lookupObj] at h
      simp [h]
    · simp only [lookupObj, ha, if_false] at h
      exact List.mem_cons_of_mem _ (lookupObj_mem k rest v h)

/-- The C9 invariant: outer context keys pairwise distinct, and msgid keys
pairwise distinct within each bucket. -/
abbrev catInv (cat : TranslationStrings) : Prop :=
  (cat.map Prod.fst).Nodup ∧ ∀ p ∈ cat, (p.2.map Prod.fst).Nodup

theorem storeEntry_inv (cat : TranslationStrings) (e : GetTextTranslation)
    (h : catInv cat) : catInv (storeEntry cat e) := by
  obtain ⟨houter, hinner⟩ := h
  constructor
  · exact objInsert_nodup _ _ cat houter
  · intro p hp
    rcases objInsert_mem _ _ cat p hp with hpe | hpe
    · subst hpe
      apply objInsert_nodup
      cases hb : lookupObj (e.msgctxt.getD "") cat with
      | none => simp
      | some inner =>
        simp only [hb, Option.getD_some]
        exact hinner (e.msgctxt.getD "", inner) (lookupObj_mem _ cat inner hb)
    · exact hinner p hpe

theorem mergeEntries_inv :
    ∀ (es : List GetTextTranslation) (cat : TranslationStrings),
    catInv cat → catInv (mergeEntries cat es)
  | [], cat, h => h
  | e :: es, cat, h => mergeEntries_inv es (storeEntry cat e) (storeEntry_inv cat e h)

/-- C9: after any sequence of merge operations starting from the empty
catalog, every identity key `(msgctxt ?? "", msgid)` maps to at most one
entry — the outer context keys are pairwise distinct and so are the msgid
keys inside every bucket — and a context-less entry is stored under the
empty-string bucket, a valid key of its own, from which it is retrievable. -/
theorem catalog_unique_identity (es : List GetTextTranslation) :
    ((mergeEntries [] es).map Prod.fst).Nodup ∧
    (∀ p ∈ mergeEntries [] es, (p.2.map Prod.fst).Nodup) ∧
    (∀ e : GetTextTranslation, e.msgctxt = none →
      lookup2 (storeEntry (mergeEntries [] es) e) "" e.msgid = some e) := by
  have hinv : catInv (mergeEntries [] es) := mergeEntries_inv es [] (by simp [catInv])
  refine ⟨hinv.1, hinv.2, ?_⟩
  intro e he
  rw [lookup2_storeEntry]
  simp [he]

/-- Witness for C9, at the one-element merge sequence `[entryA]`. -/
theorem catalog_unique_identity_witness :
    ((mergeEntries [] [entryA]).map Prod.fst).Nodup ∧
    ((([("k", entryA)] : List (String × GetTextTranslation)).map Prod.fst)).Nodup ∧
    lookup2 (storeEntry (mergeEntries [] [entryA]) entryA) "" entryA.msgid = some entryA := by
  refine ⟨(catalog_unique_identity [entryA]).1, ?_, ?_⟩
  · exact (catalog_unique_identity [entryA]).2.1 ("", [("k", entryA)]) (by decide)
  · exact (catalog_unique_identity [entryA]).2.2 entryA rfl

/-! ## Catalog Extractor (part_000, `extractTranslations`) -/

/-- The record pushed by `extractTranslations` for one prefix match:
`{ translationKey, msgid, msgstr, msgctxt, comments }`. -/
structure CatalogRecord where
  translationKey : Option (List Char)
  msgid : List Char
  msgstr : List Char
  msgctxt : List Char
  comments : List Char
deriving DecidableEq, Repr

/-- The `lines.forEach` classifier of `extractTranslations`: a line is tested
in order against the leading tokens `msgid`, `msgstr`, `msgctxt`, `#`; the
matching field is overwritten with the trimmed remainder (comment lines
accumulate, newline-terminated).  State: (msgid, msgstr, msgctxt, comments). -/
def parseLine (acc : List Char × List Char × List Char × List Char)
    (line : List Char) : List Char × List Char × List Char × List Char :=
  if ("msgid".data).isPrefixOf line then
    (trimChars (line.drop 6), acc.2.1, acc.2.2.1, acc.2.2.2)
  else if ("msgstr".data).isPrefixOf line then
    (acc.1, trimChars (line.drop 7), acc.2.2.1, acc.2.2.2)
  else if ("msgctxt".data).isPrefixOf line then
    (acc.1, acc.2.1, trimChars (line.drop 8), acc.2.2.2)
  else if ("#".data).isPrefixOf line then
    (acc.1, acc.2.1, acc.2.2.1, acc.2.2.2 ++ trimChars (line.drop 2) ++ ('\n' :: []))
  else acc

/-- The per-block field recovery of `extractTranslations`. -/
def parseBlockFields (entry : List Char) : List Char × List Char × List Char × List Char :=
  (splitNl entry).foldl parseLine ([], [], [], [])

/-- `extractTranslations` from part_000: split the catalog text into
blank-line-separated blocks, recover each block's fields, and push one record
per configured prefix rule whose key prefixes the recovered msgid, carrying
the rule's first label as `translationKey`.  The prefix table (`prefixes`
from the missing `const` module) is passed as `rules`. -/
def extractTranslations (rules : List (List Char × List (List Char)))
    (content : List Char) : List CatalogRecord :=
  (splitBlocks content).foldl (fun acc entry =>
    let f := parseBlockFields entry
    rules.foldl (fun acc2 r =>
      if r.1.isPrefixOf f.1 then
        acc2 ++ [{ translationKey := r.2.head?, msgid := f.1, msgstr := f.2.1,
                   msgctxt := f.2.2.1, comments := f.2.2.2 }]
      else acc2) acc) []

theorem extractTranslations_inner (rules : List (List Char × List (List Char)))
    (f : List Char × List Char × List Char × List Char) :
    ∀ (acc : List CatalogRecord),
    rules.foldl (fun acc2 r =>
      if r.1.isPrefixOf f.1 then
        acc2 ++ [{ translationKey := r.2.head?, msgid := f.1, msgstr := f.2.1,
                   msgctxt := f.2.2.1, comments := f.2.2.2 }]
      else acc2) acc =
      acc ++ (rules.filter (fun r => r.1.isPrefixOf f.1)).map
        (fun r => { translationKey := r.2.head?, msgid := f.1, msgstr := f.2.1,
                    msgctxt := f.2.2.1, comments := f.2.2.2 }) := by
  induction rules with
  | nil => intro acc; simp
  | cons r rs ih =>
    intro acc
    by_cases hr : r.1.isPrefixOf f.1
    · rw [List.foldl_cons]
      simp only [hr, if_true]
      rw [ih]
      simp [List.filter_cons, hr]
    · rw [List.foldl_cons]
      simp only [hr, if_false]
      rw [ih]
      simp [List.filter_cons, hr]

theorem extractTranslations_outer (rules : List (List Char × List (List Char))) :
    ∀ (entries : List (List Char)) (acc : List CatalogRecord),
    entries.foldl (fun acc entry =>
      let f := parseBlockFields entry
      rules.foldl (fun acc2 r =>
        if r.1.isPrefixOf f.1 then
          acc2 ++ [{ translationKey := r.2.head?, msgid := f.1, msgstr := f.2.1,
                     msgctxt := f.2.2.1, comments := f.2.2.2 }]
        else acc2) acc) acc =
      acc ++ entries.flatMap (fun entry =>
        (rules.filter (fun r => r.1.isPrefixOf (parseBlockFields entry).1)).map
          (fun r => { translationKey := r.2.head?, msgid := (parseBlockFields entry).1,
                      msgstr := (parseBlockFields entry).2.1,
                      msgctxt := (parseBlockFields entry).2.2.1,
                      comments := (parseBlockFields entry).2.2.2 }))
  | [], acc => by simp
  | entry :: es, acc => by
    rw [List.foldl_cons]
    show es.foldl _ _ = _
    rw [extractTranslations_outer rules es, extractTranslations_inner rules (parseBlockFields entry) acc]
    simp [List.flatMap_cons]

/-- The two-block example text of the claim: the first block's msgid matches
the configured prefix, the second matches none. -/
def demoContent : List Char :=
  ("msgid \"Plugin Name\"\nmsgstr \"\"\n\nmsgid \"Unrelated\"\nmsgstr \"\"").data

/-- A one-rule prefix table for the example. -/
def demoRules : List (List Char × List (List Char)) :=
  [("\"Plugin".data, ["Name of the plugin".data])]

/-- C6: `extractTranslations` splits the text into blank-line-separated
blocks and, per block, emits exactly one record for every configured prefix
rule whose key prefixes the recovered msgid (carrying that rule's label as
`translationKey`), and nothing for blocks matching no rule; in particular the
two-block example with one matching block yields exactly one record. -/
theorem extractTranslations_records_per_rule
    (rules : List (List Char × List (List Char))) (content : List Char) :
    extractTranslations rules content =
      (splitBlocks content).flatMap (fun entry =>
        (rules.filter (fun r => r.1.isPrefixOf (parseBlockFields entry).1)).map
          (fun r => { translationKey := r.2.head?, msgid := (parseBlockFields entry).1,
                      msgstr := (parseBlockFields entry).2.1,
                      msgctxt := (parseBlockFields entry).2.2.1,
                      comments := (parseBlockFields entry).2.2.2 })) ∧
    (extractTranslations demoRules demoContent).length = 1 := by
  constructor
  · rw [extractTranslations, extractTranslations_outer]
    simp
  · rfl

/-! ## C8: the extractors tolerate missing or unmatched data -/

/-- C8: falsy structured input yields the empty catalog, a falsy field value
leaves the catalog untouched, a matcher finding nothing in a code text yields
the empty occurrence list (and no diagnostics), and a catalog text none of
whose blocks matches any configured prefix yields the empty record list —
never an error. -/
theorem extractors_tolerate_missing_data :
    (∀ (gjc : String → String → String) (fn fp : String),
      yieldParsedDataOpt gjc fn fp none = []) ∧
    (∀ (gjc : String → String → String) (fn fp : String) (cat : TranslationStrings)
       (term : String) (item : JItem), (item = .jnull ∨ item = .jstr "") →
      processEntry gjc fn fp cat (term, item) = cat) ∧
    (∀ (M : Matcher) (content filename slug : List Char),
      (∀ pos, M.exec pos = none) →
      extractTranslationsFromCode M content filename slug = some ([], [])) ∧
    (∀ (rules : List (List Char × List (List Char))) (content : List Char),
      (∀ entry ∈ splitBlocks content, ∀ r ∈ rules,
        r.1.isPrefixOf (parseBlockFields entry).1 = false) →
      extractTranslations rules content = []) := by
  refine ⟨fun _ _ _ => rfl, ?_, ?_, ?_⟩
  · intro gjc fn fp cat term item h
    rcases h with h | h <;> subst h <;> simp [processEntry]
  · intro M content filename slug h
    rw [extractTranslationsFromCode, runMatcher_exec_none M (content.length + 1) 0 (h 0)]
    rfl
  · intro rules content h
    rw [extractTranslations, extractTranslations_outer]
    simp only [List.nil_append]
    apply List.flatMap_eq_nil_iff.mpr
    intro entry hentry
    have : rules.filter (fun r => r.1.isPrefixOf (parseBlockFields entry).1) = [] := by
      apply List.filter_eq_nil_iff.mpr
      intro r hr
      simp [h entry hentry r hr]
    rw [this]
    rfl

/-- Witness for C8 at concrete inputs: a null field value is skipped, a
matcher with no matches yields the empty extraction, and a catalog text whose
single block matches no rule yields no records. -/
theorem extractors_tolerate_missing_data_witness :
    processEntry getJsonComment "f" "p" [] ("k", .jnull) = [] ∧
    extractTranslationsFromCode ⟨fun _ => none⟩ ('c' :: []) ('f' :: []) ('s' :: []) =
      some ([], []) ∧
    extractTranslations demoRules (("msgid \"Unrelated\"").data) = [] := by
  refine ⟨?_, ?_, ?_⟩
  · exact extractors_tolerate_missing_data.2.1 getJsonComment "f" "p" [] "k" .jnull (Or.inl rfl)
  · exact extractors_tolerate_missing_data.2.2.1 ⟨fun _ => none⟩ ('c' :: []) ('f' :: [])
      ('s' :: []) (fun _ => rfl)
  · exact extractors_tolerate_missing_data.2.2.2 demoRules _ (by decide)

end MakePot
